import Mathlib

/-!
# Verification of the signature-binding and protocol-page engine

A shallow embedding, in Lean 4, of the core of the `assinatura-eletronica`
repository — the binding/hashing engine (`src/utils/cpf.ts`), the ledger
operations (`src/utils/storage.ts`) and the protocol-page / header-stamping
engine (`src/services/pdf.ts`) — together with theorems settling the spec's
claims about them.

Modelling conventions:
* Byte buffers (`Uint8Array`) are `List Nat`, each entry a byte value.
* JavaScript strings are Lean `String`s; the character-level operations of
  the source (`substring`, `trim`, `replace`, `toUpperCase`) are modelled on
  `String.data`.  The ASCII fragment of `toUpperCase`/`toLowerCase` is used,
  which covers every character the source ever feeds them.
* The Web Crypto primitive `crypto.subtle.digest('SHA-256', ·)` is modelled
  by a full executable SHA-256 over byte lists (`Sha256.sha256`).
* `pdf-lib` documents are lists of pages; a page records its size and the
  list of text strings drawn on it, in drawing order.  Parsing
  (`PDFDocument.load`) and the external locale/number formatters
  (`toLocaleString('pt-BR')`, `toFixed`) are external collaborators and are
  taken as parameters.
* Impure reads of the clock (`new Date()`) become explicit parameters.
-/

/-- A byte buffer (`Uint8Array` in the source): a list of byte values. -/
abbrev Bytes := List Nat

/-! ## SHA-256 (model of `crypto.subtle.digest('SHA-256', ·)`)

A direct executable rendition of FIPS 180-4 on byte lists, with 32-bit
words as naturals reduced `% 2 ^ 32`. -/

namespace Sha256

/-- Right-rotation of a 32-bit word. -/
def rotr (k x : Nat) : Nat := (x / 2 ^ k + x % 2 ^ k * 2 ^ (32 - k)) % 2 ^ 32

/-- Logical right shift. -/
def shr (k x : Nat) : Nat := x / 2 ^ k

def bsig0 (x : Nat) : Nat := rotr 2 x ^^^ rotr 13 x ^^^ rotr 22 x

def bsig1 (x : Nat) : Nat := rotr 6 x ^^^ rotr 11 x ^^^ rotr 25 x

def ssig0 (x : Nat) : Nat := rotr 7 x ^^^ rotr 18 x ^^^ shr 3 x

def ssig1 (x : Nat) : Nat := rotr 17 x ^^^ rotr 19 x ^^^ shr 10 x

def ch (x y z : Nat) : Nat := (x &&& y) ^^^ ((x ^^^ (2 ^ 32 - 1)) &&& z)

def maj (x y z : Nat) : Nat := (x &&& y) ^^^ (x &&& z) ^^^ (y &&& z)

/-- The 64 round constants of FIPS 180-4, written in decimal. -/
def K : Array Nat := #[
  1116352408, 1899447441, 3049323471, 3921009573,
  961987163, 1508970993, 2453635748, 2870763221,
  3624381080, 310598401, 607225278, 1426881987,
  1925078388, 2162078206, 2614888103, 3248222580,
  3835390401, 4022224774, 264347078, 604807628,
  770255983, 1249150122, 1555081692, 1996064986,
  2554220882, 2821834349, 2952996808, 3210313671,
  3336571891, 3584528711, 113926993, 338241895,
  666307205, 773529912, 1294757372, 1396182291,
  1695183700, 1986661051, 2177026350, 2456956037,
  2730485921, 2820302411, 3259730800, 3345764771,
  3516065817, 3600352804, 4094571909, 275423344,
  430227734, 506948616, 659060556, 883997877,
  958139571, 1322822218, 1537002063, 1747873779,
  1955562222, 2024104815, 2227730452, 2361852424,
  2428436474, 2756734187, 3204031479, 3329325298]

/-- The eight-word working state / hash value. -/
structure Hash8 where
  a : Nat
  b : Nat
  c : Nat
  d : Nat
  e : Nat
  f : Nat
  g : Nat
  h : Nat

/-- Initial hash value of FIPS 180-4, written in decimal. -/
def initH : Hash8 :=
  ⟨1779033703, 3144134277, 1013904242, 2773480762,
   1359893119, 2600822924, 528734635, 1541459225⟩

/-- Extend the first 16 schedule words to 64. -/
def schedule (w16 : Array Nat) : Array Nat :=
  (List.range 48).foldl
    (fun w i =>
      w.push ((ssig1 (w.getD (i + 14) 0) + w.getD (i + 9) 0 +
               ssig0 (w.getD (i + 1) 0) + w.getD i 0) % 2 ^ 32))
    w16

/-- One compression round with key-plus-schedule word `kw`. -/
def round (s : Hash8) (kw : Nat) : Hash8 :=
  let t1 := (s.h + bsig1 s.e + ch s.e s.f s.g + kw) % 2 ^ 32
  let t2 := (bsig0 s.a + maj s.a s.b s.c) % 2 ^ 32
  ⟨(t1 + t2) % 2 ^ 32, s.a, s.b, s.c, (s.d + t1) % 2 ^ 32, s.e, s.f, s.g⟩

/-- Compress one 64-byte block into the running hash. -/
def compressBlock (s : Hash8) (block : Bytes) : Hash8 :=
  let w16 := (List.range 16).foldl
    (fun w i =>
      w.push ((block.getD (4 * i) 0 % 256) * 2 ^ 24 + (block.getD (4 * i + 1) 0 % 256) * 2 ^ 16 +
              (block.getD (4 * i + 2) 0 % 256) * 2 ^ 8 + block.getD (4 * i + 3) 0 % 256))
    #[]
  let w := schedule w16
  let t := (List.range 64).foldl (fun st i => round st ((K.getD i 0 + w.getD i 0) % 2 ^ 32)) s
  ⟨(s.a + t.a) % 2 ^ 32, (s.b + t.b) % 2 ^ 32, (s.c + t.c) % 2 ^ 32, (s.d + t.d) % 2 ^ 32,
   (s.e + t.e) % 2 ^ 32, (s.f + t.f) % 2 ^ 32, (s.g + t.g) % 2 ^ 32, (s.h + t.h) % 2 ^ 32⟩

/-- A 32-bit word as 4 big-endian bytes. -/
def wordBytesBE (x : Nat) : Bytes :=
  [x / 2 ^ 24 % 256, x / 2 ^ 16 % 256, x / 2 ^ 8 % 256, x % 256]

/-- A 64-bit length as 8 big-endian bytes. -/
def lenBytesBE (x : Nat) : Bytes :=
  [x / 2 ^ 56 % 256, x / 2 ^ 48 % 256, x / 2 ^ 40 % 256, x / 2 ^ 32 % 256,
   x / 2 ^ 24 % 256, x / 2 ^ 16 % 256, x / 2 ^ 8 % 256, x % 256]

/-- FIPS 180-4 padding: `0x80`, zeros to 56 mod 64, then the bit length. -/
def pad (msg : Bytes) : Bytes :=
  msg ++ 0x80 :: List.replicate ((119 - msg.length % 64) % 64) 0 ++ lenBytesBE (msg.length * 8)

/-- Split a byte list into 64-byte blocks. -/
def toBlocks (l : Bytes) : List Bytes :=
  if h : l = [] then [] else l.take 64 :: toBlocks (l.drop 64)
termination_by l.length
decreasing_by
  simp only [List.length_drop]
  cases l with
  | nil => exact absurd rfl h
  | cons a t => simp only [List.length_cons]; omega

/-- SHA-256 of a byte list, as its 32 digest bytes. -/
def sha256 (msg : Bytes) : Bytes :=
  let fin := (toBlocks (pad msg)).foldl compressBlock initH
  wordBytesBE fin.a ++ wordBytesBE fin.b ++ wordBytesBE fin.c ++ wordBytesBE fin.d ++
  wordBytesBE fin.e ++ wordBytesBE fin.f ++ wordBytesBE fin.g ++ wordBytesBE fin.h

theorem sha256_length (msg : Bytes) : (sha256 msg).length = 32 := by
  simp [sha256, wordBytesBE]

theorem sha256_bytes_lt (msg : Bytes) : ∀ b ∈ sha256 msg, b < 256 := by
  intro b hb
  simp only [sha256, wordBytesBE, List.mem_append, List.mem_cons, List.not_mem_nil, or_false] at hb
  omega

end Sha256

/-! ## Hex rendering (model of `b.toString(16).padStart(2, '0')` and `join('')`) -/

/-- One hex digit, lower case, as produced by `Number.prototype.toString(16)`. -/
def hexDigit (n : Nat) : Char :=
  if n < 10 then Char.ofNat (48 + n) else Char.ofNat (87 + n)

/-- A byte as two zero-padded lower-case hex characters: the model of
`b.toString(16).padStart(2, '0')` for `b < 256`. -/
def byteHex (b : Nat) : List Char := [hexDigit (b / 16 % 16), hexDigit (b % 16)]

/-- The claim's character class: lower-case hexadecimal. -/
def isLowerHexDigit (c : Char) : Bool :=
  (48 ≤ c.toNat && c.toNat ≤ 57) || (97 ≤ c.toNat && c.toNat ≤ 102)

/-! ## `src/utils/cpf.ts` -/

/-- Embeds `normalizeCPF`: strip every non-digit (`replace(/\D/g, '')`). -/
def normalizeCPF (cpf : String) : String := ⟨cpf.data.filter Char.isDigit⟩

/-- Embeds `formatCPF`: digits-only CPF of length 11 is punctuated as
`XXX.XXX.XXX-XX`; anything else is returned unchanged. -/
def formatCPF (cpf : String) : String :=
  let clean := normalizeCPF cpf
  if clean.data.length ≠ 11 then cpf
  else
    ⟨clean.data.take 3⟩ ++ "." ++ ⟨(clean.data.drop 3).take 3⟩ ++ "." ++
      ⟨(clean.data.drop 6).take 3⟩ ++ "-" ++ ⟨clean.data.drop 9⟩

/-- UTF-8 bytes of a string: the model of `new TextEncoder().encode(s)`. -/
def utf8Bytes (s : String) : Bytes := s.toUTF8.toList.map (fun b => b.toNat)

/-- Embeds `generateSHA256` (the `Uint8Array` branch): SHA-256 of the bytes,
each digest byte rendered as two zero-padded lower-case hex characters and
joined. -/
def generateSHA256 (data : Bytes) : String := ⟨(Sha256.sha256 data).flatMap byteHex⟩

/-- Embeds the `signerPayload` template literal of `generateSignatureHash`. -/
def signerPayload (signerName signerCPF deviceId timestamp : String) : String :=
  "|NAME:" ++ signerName ++ "|CPF:" ++ signerCPF ++ "|DEVICE:" ++ deviceId ++
    "|TIME:" ++ timestamp ++ "|"

/-- Embeds `generateSignatureHash`: the payload is UTF-8 encoded, appended
after the PDF bytes (the `Uint8Array.set` copies), and hashed. -/
def generateSignatureHash (pdfBytes : Bytes)
    (signerName signerCPF deviceId timestamp : String) : String :=
  generateSHA256 (pdfBytes ++ utf8Bytes (signerPayload signerName signerCPF deviceId timestamp))

/-- Embeds `abbreviateHash`: keep short strings, otherwise first `len`
characters, `"..."`, last `len` characters. -/
def abbreviateHash (hash : String) (len : Nat) : String :=
  if hash.data.length ≤ len * 2 + 3 then hash
  else ⟨hash.data.take len⟩ ++ "..." ++ ⟨hash.data.drop (hash.data.length - len)⟩

/-! ## C1 — binding hash -/

theorem length_flatMap_byteHex (bs : Bytes) : (bs.flatMap byteHex).length = 2 * bs.length := by
  induction bs with
  | nil => simp
  | cons b t ih => simp [byteHex, ih]; ring

theorem hexDigit_isLowerHex : ∀ n < 16, isLowerHexDigit (hexDigit n) = true := by decide

/-- C1: for every document byte buffer and signer fields, the binding hash
`generateSignatureHash` is exactly the SHA-256 digest of
`docBytes ++ UTF8("|NAME:" + name + "|CPF:" + taxId + "|DEVICE:" + deviceToken
+ "|TIME:" + signedAt + "|")`, rendered with two zero-padded hex characters
per digest byte; the rendering has exactly 64 characters, all lower-case
hexadecimal. -/
theorem binding_hash_spec (pdfBytes : Bytes) (name taxId deviceToken signedAt : String) :
    generateSignatureHash pdfBytes name taxId deviceToken signedAt =
      ⟨(Sha256.sha256 (pdfBytes ++ utf8Bytes ("|NAME:" ++ name ++ "|CPF:" ++ taxId ++
          "|DEVICE:" ++ deviceToken ++ "|TIME:" ++ signedAt ++ "|"))).flatMap byteHex⟩ ∧
    (generateSignatureHash pdfBytes name taxId deviceToken signedAt).length = 64 ∧
    ∀ c ∈ (generateSignatureHash pdfBytes name taxId deviceToken signedAt).data,
      isLowerHexDigit c = true := by
  refine ⟨rfl, ?_, ?_⟩
  · show ((Sha256.sha256 (pdfBytes ++ utf8Bytes (signerPayload name taxId deviceToken
        signedAt))).flatMap byteHex).length = 64
    rw [length_flatMap_byteHex, Sha256.sha256_length]
  · intro c hc
    have hc' : c ∈ (Sha256.sha256 (pdfBytes ++ utf8Bytes (signerPayload name taxId deviceToken
        signedAt))).flatMap byteHex := hc
    rcases List.mem_flatMap.mp hc' with ⟨b, _, hcb⟩
    simp only [byteHex, List.mem_cons, List.not_mem_nil, or_false] at hcb
    rcases hcb with h | h <;>
      exact h ▸ hexDigit_isLowerHex _ (Nat.mod_lt _ (by norm_num))

/-! ## C8 — digest abbreviation -/

/-- C8: `abbreviateHash` keeps a digest whose length is at most
`edgeLength*2+3` unchanged, and otherwise returns the first `edgeLength`
characters, `"..."`, and the last `edgeLength` characters; on a 64-character
digest with edge 8 the result has exactly 19 characters. -/
theorem abbreviate_spec (d : String) (e : Nat) :
    (d.length ≤ e * 2 + 3 → abbreviateHash d e = d) ∧
    (e * 2 + 3 < d.length →
      abbreviateHash d e =
        ⟨d.data.take e⟩ ++ "..." ++ ⟨d.data.drop (d.data.length - e)⟩) ∧
    (d.length = 64 → (abbreviateHash d 8).length = 19) := by
  have hlen : d.length = d.data.length := rfl
  refine ⟨fun h => ?_, fun h => ?_, fun h => ?_⟩
  · rw [abbreviateHash, if_pos (hlen ▸ h)]
  · rw [abbreviateHash, if_neg (by omega)]
  · rw [abbreviateHash, if_neg (by omega)]
    have h64 : d.data.length = 64 := hlen ▸ h
    have h3 : ("..." : String).length = 3 := rfl
    rw [String.length_append, String.length_append, h3]
    show (d.data.take 8).length + 3 + (d.data.drop (d.data.length - 8)).length = 19
    rw [List.length_take, List.length_drop, h64]
    omega

/-- A concrete 64-character digest used to instantiate `abbreviate_spec`. -/
def sampleDigest : String := "a591a6d40bf420404a011733cfb7b190d62c65bf0bcda32b57b277d9ad9f146e"

/-- Witness for C8 at a concrete 64-character digest. -/
theorem abbreviate_witness : (abbreviateHash sampleDigest 8).length = 19 :=
  (abbreviate_spec sampleDigest 8).2.2 (by decide)

/-! ## Data model (`src/types`) and `src/utils/storage.ts` -/

/-- Embeds the `PDFMetadata` interface. -/
structure PDFMetadata where
  fileName : String
  fileSize : ℚ
  lastModified : Int
deriving DecidableEq

/-- Embeds the `SignatureData` interface. -/
structure SignatureData where
  id : String
  name : String
  cpf : String
  deviceId : String
  timestamp : String
  hash : String
deriving DecidableEq

/-- Embeds the `SignatureLog` interface. -/
structure SignatureLog where
  documentId : String
  pdfMetadata : PDFMetadata
  signatures : List SignatureData
  createdAt : String
  updatedAt : String
deriving DecidableEq

/-- Embeds `addSignatureToLog`.  The impure clock read
`new Date().toISOString()` becomes the explicit parameter `now`; the source
builds a fresh object with spread syntax, so the embedding is a functional
record update. -/
def addSignatureToLog (log : SignatureLog) (signature : SignatureData) (now : String) :
    SignatureLog :=
  { log with signatures := log.signatures ++ [signature], updatedAt := now }

/-! ## C6 — ledger append is pure and frame-respecting -/

/-- C6: appending a signer record yields a ledger whose signature sequence is
the old one with the record at the end; `documentId`, `pdfMetadata` and
`createdAt` are untouched and only `updatedAt` changes (to the supplied
clock value).  The input ledger itself is untouched — the embedding is a
pure function building a new record, exactly as the source's spread syntax
does. -/
theorem addSignature_frame (log : SignatureLog) (signature : SignatureData) (now : String) :
    (addSignatureToLog log signature now).signatures = log.signatures ++ [signature] ∧
    (addSignatureToLog log signature now).documentId = log.documentId ∧
    (addSignatureToLog log signature now).pdfMetadata = log.pdfMetadata ∧
    (addSignatureToLog log signature now).createdAt = log.createdAt ∧
    (addSignatureToLog log signature now).updatedAt = now :=
  ⟨rfl, rfl, rfl, rfl, rfl⟩

/-! ## `applySignatureStamp` (`src/services/pdf.ts`) and C9 -/

/-- Embeds `applySignatureStamp`: the visual stamp was removed, so the
function returns the input byte buffer unchanged. -/
def applySignatureStamp (pdfBytes : Bytes) (signature : SignatureData)
    (existingSignatures : Nat) : Bytes :=
  pdfBytes

/-- The signing session of `App.tsx`: each signing action replaces the held
bytes by `applySignatureStamp` of them, with the running count of existing
signatures. -/
def signSession (pdfBytes : Bytes) : List SignatureData → Nat → Bytes
  | [], _ => pdfBytes
  | s :: rest, existing => signSession (applySignatureStamp pdfBytes s existing) rest (existing + 1)

/-- C9: `applySignatureStamp` is the identity on the document bytes, so after
any sequence of signing actions the held bytes are the original ones, and
every signer's binding hash is computed over the same base document bytes. -/
theorem applyStamp_identity (pdfBytes : Bytes) (signature : SignatureData)
    (existing : Nat) (sigs : List SignatureData)
    (name taxId deviceToken signedAt : String) :
    applySignatureStamp pdfBytes signature existing = pdfBytes ∧
    signSession pdfBytes sigs existing = pdfBytes ∧
    generateSignatureHash (signSession pdfBytes sigs existing) name taxId deviceToken signedAt =
      generateSignatureHash pdfBytes name taxId deviceToken signedAt := by
  have hsess : ∀ (l : List SignatureData) (n : Nat), signSession pdfBytes l n = pdfBytes := by
    intro l
    induction l with
    | nil => intro n; rfl
    | cons s rest ih => intro n; exact ih (n + 1)
  exact ⟨rfl, hsess sigs existing, by rw [hsess]⟩

/-! ## `normalizeName` (`src/utils/cpf.ts`) and C10 -/

/-- The code points of the JavaScript whitespace class (`\s` in regexes and
`String.prototype.trim`). -/
def jsWhitespaceCodes : List Nat :=
  [9, 10, 11, 12, 13, 32, 160, 5760, 8192, 8193, 8194, 8195, 8196, 8197, 8198,
   8199, 8200, 8201, 8202, 8232, 8233, 8239, 8287, 12288, 65279]

/-- Whether a character is JavaScript whitespace. -/
def isJsWhitespace (c : Char) : Bool := decide (c.toNat ∈ jsWhitespaceCodes)

/-- `dropWhile` whitespace from both ends: the model of
`String.prototype.trim`. -/
def trimChars (l : List Char) : List Char :=
  ((l.dropWhile isJsWhitespace).reverse.dropWhile isJsWhitespace).reverse

/-- The model of `replace(/\s+/g, ' ')`: every maximal whitespace run becomes
one space.  The flag records whether the previous character was whitespace,
i.e. whether the current run has already emitted its space. -/
def collapseWs : Bool → List Char → List Char
  | _, [] => []
  | prevWs, c :: rest =>
    if isJsWhitespace c then
      if prevWs then collapseWs true rest else ' ' :: collapseWs true rest
    else c :: collapseWs false rest

/-- The ASCII fragment of `String.prototype.toUpperCase`. -/
def jsToUpper (c : Char) : Char :=
  if 97 ≤ c.toNat ∧ c.toNat ≤ 122 then Char.ofNat (c.toNat - 32) else c

/-- Embeds `normalizeName`: `name.trim().replace(/\s+/g, ' ').toUpperCase()`. -/
def normalizeName (name : String) : String :=
  ⟨(collapseWs false (trimChars name.data)).map jsToUpper⟩

theorem charToNat_ofNat_valid (n : Nat) (h : n.isValidChar) : (Char.ofNat n).toNat = n := by
  unfold Char.ofNat
  rw [dif_pos h]
  rfl

theorem ws_false_of_range (c : Char) (h1 : 33 ≤ c.toNat) (h2 : c.toNat ≤ 159) :
    isJsWhitespace c = false := by
  simp only [isJsWhitespace, jsWhitespaceCodes, decide_eq_false_iff_not, List.mem_cons,
    List.not_mem_nil, or_false]
  omega

theorem jsToUpper_idem (c : Char) : jsToUpper (jsToUpper c) = jsToUpper c := by
  by_cases h : 97 ≤ c.toNat ∧ c.toNat ≤ 122
  · have hv : (c.toNat - 32).isValidChar := Or.inl (by omega)
    have hup : jsToUpper c = Char.ofNat (c.toNat - 32) := by rw [jsToUpper, if_pos h]
    have ht : (jsToUpper c).toNat = c.toNat - 32 := by
      rw [hup]; exact charToNat_ofNat_valid _ hv
    rw [jsToUpper, if_neg (by omega)]
  · have hup : jsToUpper c = c := by rw [jsToUpper, if_neg h]
    rw [hup, hup]

theorem ws_jsToUpper (c : Char) : isJsWhitespace (jsToUpper c) = isJsWhitespace c := by
  by_cases h : 97 ≤ c.toNat ∧ c.toNat ≤ 122
  · have hv : (c.toNat - 32).isValidChar := Or.inl (by omega)
    have ht : (Char.ofNat (c.toNat - 32)).toNat = c.toNat - 32 := charToNat_ofNat_valid _ hv
    rw [jsToUpper, if_pos h, ws_false_of_range _ (by omega) (by omega),
      ws_false_of_range _ (by omega) (by omega)]
  · rw [jsToUpper, if_neg h]

theorem jsToUpper_space : jsToUpper ' ' = ' ' := by decide

theorem collapse_ws_space : ∀ (b : Bool) (l : List Char) (c : Char),
    c ∈ collapseWs b l → isJsWhitespace c = true → c = ' ' := by
  intro b l
  induction l generalizing b with
  | nil => intro c hc; simp [collapseWs] at hc
  | cons a t ih =>
    intro c hc hws
    by_cases ha : isJsWhitespace a = true
    · cases b with
      | true => rw [collapseWs, if_pos ha, if_pos rfl] at hc; exact ih true c hc hws
      | false =>
        rw [collapseWs, if_pos ha, if_neg (by simp)] at hc
        rcases List.mem_cons.mp hc with h | h
        · exact h
        · exact ih true c h hws
    · rw [collapseWs, if_neg ha] at hc
      rcases List.mem_cons.mp hc with h | h
      · exact absurd (h ▸ hws) ha
      · exact ih false c h hws

theorem collapse_true_head : ∀ (l : List Char) (c : Char),
    (collapseWs true l).head? = some c → isJsWhitespace c = false := by
  intro l
  induction l with
  | nil => intro c hc; simp [collapseWs] at hc
  | cons a t ih =>
    intro c hc
    by_cases ha : isJsWhitespace a = true
    · rw [collapseWs, if_pos ha, if_pos rfl] at hc; exact ih c hc
    · rw [collapseWs, if_neg ha] at hc
      simp only [List.head?_cons, Option.some.injEq] at hc
      subst hc
      exact Bool.eq_false_iff.mpr ha

theorem collapse_chain : ∀ (b : Bool) (l : List Char),
    List.Chain' (fun x y => ¬(isJsWhitespace x = true ∧ isJsWhitespace y = true))
      (collapseWs b l) := by
  intro b l
  induction l generalizing b with
  | nil => simp [collapseWs]
  | cons a t ih =>
    by_cases ha : isJsWhitespace a = true
    · cases b with
      | true => rw [collapseWs, if_pos ha, if_pos rfl]; exact ih true
      | false =>
        rw [collapseWs, if_pos ha, if_neg (by simp)]
        refine List.chain'_cons'.mpr ⟨?_, ih true⟩
        intro y hy hcon
        exact absurd (collapse_true_head t y hy) (by rw [hcon.2]; simp)
    · rw [collapseWs, if_neg ha]
      refine List.chain'_cons'.mpr ⟨?_, ih false⟩
      intro y hy hcon
      exact ha hcon.1

theorem collapse_head_eq (b : Bool) (l : List Char) (c : Char) (hc : l.head? = some c)
    (hws : isJsWhitespace c = false) : (collapseWs b l).head? = some c := by
  cases l with
  | nil => cases hc
  | cons a t =>
    simp only [List.head?_cons, Option.some.injEq] at hc
    subst hc
    rw [collapseWs, if_neg (by rw [hws]; simp)]
    rfl

theorem getLast?_cons_of_some {α : Type} (x : α) (m : List α) (c : α)
    (h : m.getLast? = some c) : (x :: m).getLast? = some c := by
  cases m with
  | nil => cases h
  | cons y m2 => rw [List.getLast?_cons_cons]; exact h

theorem collapse_getLast_eq : ∀ (l : List Char) (b : Bool) (c : Char),
    l.getLast? = some c → isJsWhitespace c = false →
    (collapseWs b l).getLast? = some c := by
  intro l
  induction l with
  | nil => intro b c hc; cases hc
  | cons a t ih =>
    intro b c hc hws
    cases t with
    | nil =>
      simp only [List.getLast?_singleton, Option.some.injEq] at hc
      subst hc
      rw [collapseWs, if_neg (by rw [hws]; simp)]
      rfl
    | cons d t2 =>
      rw [List.getLast?_cons_cons] at hc
      have hrec : ∀ b2 : Bool, (collapseWs b2 (d :: t2)).getLast? = some c :=
        fun b2 => ih b2 c hc hws
      by_cases ha : isJsWhitespace a = true
      · cases b with
        | true => rw [collapseWs, if_pos ha, if_pos rfl]; exact hrec true
        | false =>
          rw [collapseWs, if_pos ha, if_neg (by simp)]
          exact getLast?_cons_of_some _ _ _ (hrec true)
      · rw [collapseWs, if_neg ha]
        exact getLast?_cons_of_some _ _ _ (hrec false)

theorem collapse_fix : ∀ (l : List Char) (b : Bool),
    (∀ c ∈ l, isJsWhitespace c = true → c = ' ') →
    List.Chain' (fun x y => ¬(isJsWhitespace x = true ∧ isJsWhitespace y = true)) l →
    (b = true → ∀ c, l.head? = some c → isJsWhitespace c = false) →
    collapseWs b l = l := by
  intro l
  induction l with
  | nil => intro b _ _ _; rfl
  | cons a t ih =>
    intro b hsp hch hflag
    rcases List.chain'_cons'.mp hch with ⟨hhd, htl⟩
    by_cases ha : isJsWhitespace a = true
    · cases b with
      | true =>
        exact absurd (hflag rfl a rfl) (by rw [ha]; simp)
      | false =>
        rw [collapseWs, if_pos ha, if_neg (by simp)]
        have haspace : a = ' ' := hsp a (List.mem_cons_self a t) ha
        have ht : collapseWs true t = t := by
          refine ih true (fun c hc => hsp c (List.mem_cons_of_mem _ hc)) htl ?_
          intro _ c hc
          have := hhd c hc
          by_cases hwc : isJsWhitespace c = true
          · exact absurd ⟨ha, hwc⟩ this
          · exact Bool.eq_false_iff.mpr hwc
        rw [ht, haspace]
    · rw [collapseWs, if_neg ha]
      have ht : collapseWs false t = t := by
        refine ih false (fun c hc => hsp c (List.mem_cons_of_mem _ hc)) htl ?_
        intro habs; cases habs
      rw [ht]

theorem head_dropWhile_not {α : Type} (p : α → Bool) :
    ∀ (l : List α) (c : α), (l.dropWhile p).head? = some c → p c = false := by
  intro l
  induction l with
  | nil => intro c hc; cases hc
  | cons a t ih =>
    intro c hc
    by_cases ha : p a = true
    · rw [List.dropWhile_cons_of_pos ha] at hc; exact ih c hc
    · rw [List.dropWhile_cons_of_neg ha] at hc
      simp only [List.head?_cons, Option.some.injEq] at hc
      subst hc
      exact Bool.eq_false_iff.mpr ha

theorem dropWhile_fix {α : Type} (p : α → Bool) (l : List α)
    (h : ∀ c, l.head? = some c → p c = false) : l.dropWhile p = l := by
  cases l with
  | nil => rfl
  | cons a t => exact List.dropWhile_cons_of_neg (by rw [h a rfl]; simp)

theorem dropWhile_suffix_decomp {α : Type} (p : α → Bool) :
    ∀ l : List α, ∃ t, l = t ++ l.dropWhile p := by
  intro l
  induction l with
  | nil => exact ⟨[], rfl⟩
  | cons a t ih =>
    by_cases ha : p a = true
    · rcases ih with ⟨u, hu⟩
      exact ⟨a :: u, by rw [List.dropWhile_cons_of_pos ha, List.cons_append, ← hu]⟩
    · exact ⟨[], by rw [List.dropWhile_cons_of_neg ha]; rfl⟩

theorem head?_append_left {α : Type} (l1 l2 : List α) (c : α)
    (h : l1.head? = some c) : (l1 ++ l2).head? = some c := by
  cases l1 with
  | nil => cases h
  | cons a t => exact h

theorem trim_head_not_ws (l : List Char) (c : Char)
    (h : (trimChars l).head? = some c) : isJsWhitespace c = false := by
  rw [trimChars] at h
  set m := l.dropWhile isJsWhitespace with hm
  set d := m.reverse.dropWhile isJsWhitespace with hd
  rcases dropWhile_suffix_decomp isJsWhitespace m.reverse with ⟨t, ht⟩
  have hm2 : m = d.reverse ++ t.reverse := by
    have := congrArg List.reverse ht
    rwa [List.reverse_reverse, List.reverse_append] at this
  have hmh : m.head? = some c := by
    rw [hm2]; exact head?_append_left _ _ _ h
  exact head_dropWhile_not isJsWhitespace l c (hm ▸ hmh)

theorem trim_getLast_not_ws (l : List Char) (c : Char)
    (h : (trimChars l).getLast? = some c) : isJsWhitespace c = false := by
  rw [trimChars, List.getLast?_reverse] at h
  exact head_dropWhile_not isJsWhitespace _ c h

theorem collapse_trim_head_not_ws (l : List Char) (c : Char)
    (hc : (collapseWs false (trimChars l)).head? = some c) : isJsWhitespace c = false := by
  cases htr : trimChars l with
  | nil => rw [htr] at hc; cases hc
  | cons a t =>
    have hwa : isJsWhitespace a = false := trim_head_not_ws l a (by rw [htr]; rfl)
    have := collapse_head_eq false (trimChars l) a (by rw [htr]; rfl) hwa
    rw [this] at hc
    cases hc
    exact hwa

theorem collapse_trim_getLast_not_ws (l : List Char) (c : Char)
    (hc : (collapseWs false (trimChars l)).getLast? = some c) : isJsWhitespace c = false := by
  cases hlast : (trimChars l).getLast? with
  | none =>
    have : trimChars l = [] := List.getLast?_eq_none_iff.mp hlast
    rw [this] at hc
    cases hc
  | some d =>
    have hwd : isJsWhitespace d = false := trim_getLast_not_ws l d hlast
    have := collapse_getLast_eq (trimChars l) false d hlast hwd
    rw [this] at hc
    cases hc
    exact hwd

/-- C10: `normalizeName` is idempotent, and its result has no leading
whitespace, no trailing whitespace, and no two consecutive whitespace
characters. -/
theorem normalizeName_spec (s : String) :
    normalizeName (normalizeName s) = normalizeName s ∧
    (normalizeName s).data.head?.all (fun c => !isJsWhitespace c) = true ∧
    (normalizeName s).data.getLast?.all (fun c => !isJsWhitespace c) = true ∧
    List.Chain' (fun x y => ¬(isJsWhitespace x = true ∧ isJsWhitespace y = true))
      (normalizeName s).data := by
  have hdata : (normalizeName s).data = (collapseWs false (trimChars s.data)).map jsToUpper := rfl
  set m := collapseWs false (trimChars s.data) with hm
  have hhead : ∀ c, (m.map jsToUpper).head? = some c → isJsWhitespace c = false := by
    intro c hc
    rw [List.head?_map] at hc
    cases hmh : m.head? with
    | none => rw [hmh] at hc; cases hc
    | some d =>
      rw [hmh] at hc
      cases hc
      rw [ws_jsToUpper]
      exact collapse_trim_head_not_ws s.data d hmh
  have hlast : ∀ c, (m.map jsToUpper).getLast? = some c → isJsWhitespace c = false := by
    intro c hc
    rw [List.getLast?_map] at hc
    cases hmh : m.getLast? with
    | none => rw [hmh] at hc; cases hc
    | some d =>
      rw [hmh] at hc
      cases hc
      rw [ws_jsToUpper]
      exact collapse_trim_getLast_not_ws s.data d hmh
  have hchain : List.Chain' (fun x y => ¬(isJsWhitespace x = true ∧ isJsWhitespace y = true))
      (m.map jsToUpper) := by
    rw [List.chain'_map]
    refine (collapse_chain false (trimChars s.data)).imp ?_
    intro a b hab hcon
    exact hab ⟨by rw [← ws_jsToUpper a]; exact hcon.1, by rw [← ws_jsToUpper b]; exact hcon.2⟩
  have hspace : ∀ c ∈ m.map jsToUpper, isJsWhitespace c = true → c = ' ' := by
    intro c hc hws
    rcases List.mem_map.mp hc with ⟨x, hx, hfx⟩
    subst hfx
    have hwx : isJsWhitespace x = true := by rw [← ws_jsToUpper x]; exact hws
    have := collapse_ws_space false (trimChars s.data) x hx hwx
    rw [this, jsToUpper_space]
  refine ⟨?_, ?_, ?_, hdata ▸ hchain⟩
  · have htrim : trimChars (m.map jsToUpper) = m.map jsToUpper := by
      rw [trimChars]
      rw [dropWhile_fix _ _ (fun c hc => hhead c hc)]
      rw [dropWhile_fix _ _ (fun c hc => hlast c (by rwa [List.head?_reverse] at hc))]
      rw [List.reverse_reverse]
    have hcoll : collapseWs false (m.map jsToUpper) = m.map jsToUpper :=
      collapse_fix _ false hspace hchain (by intro habs; cases habs)
    have hmapmap : (m.map jsToUpper).map jsToUpper = m.map jsToUpper := by
      rw [List.map_map]
      exact List.map_congr_left (fun x _ => jsToUpper_idem x)
    show (⟨(collapseWs false (trimChars (normalizeName s).data)).map jsToUpper⟩ : String) =
      normalizeName s
    rw [hdata, htrim, hcoll, hmapmap]
    rfl
  · rcases hh : (normalizeName s).data.head? with _ | c
    · rfl
    · have := hhead c (hdata ▸ hh)
      simp [Option.all, this]
  · rcases hh : (normalizeName s).data.getLast? with _ | c
    · rfl
    · have := hlast c (hdata ▸ hh)
      simp [Option.all, this]

/-! ## `detectOriginalPageSize` (`src/services/pdf.ts`) and C5 -/

/-- A page size in PDF points.  `pdf-lib` reports floating-point sizes; the
embedding uses exact rationals. -/
abbrev Dim := ℚ × ℚ

/-- `PageSizes.A4` of pdf-lib, in points. -/
def a4Size : Dim := (595.28, 841.89)

/-- One step of filling `sizeFrequency`: bump the entry for `p`, or append a
new entry with count 1.  The source's `Map` keyed by the string
`width + "x" + height` preserves insertion order and its keys are in
bijection with the size pairs, so it is modelled as an insertion-ordered
association list keyed by the pair. -/
def bumpSize (m : List (Dim × Nat)) (p : Dim) : List (Dim × Nat) :=
  if m.any (fun e => e.1 = p) then
    m.map (fun e => if e.1 = p then (e.1, e.2 + 1) else e)
  else m ++ [(p, 1)]

/-- The `sizeFrequency` map after scanning all pages in order. -/
def sizeFrequency (pages : List Dim) : List (Dim × Nat) := pages.foldl bumpSize []

/-- The most-common-size scan: strictly-improving maximum starting from
`([0,0], 0)`, so the earliest entry with the maximal count wins. -/
def pickMostCommon (entries : List (Dim × Nat)) : Dim × Nat :=
  entries.foldl (fun best e => if best.2 < e.2 then e else best) ((0, 0), 0)

/-- Embeds `detectOriginalPageSize`: A4 for an empty document, the single
page's size for a one-page document, otherwise the most frequent size. -/
def detectOriginalPageSize (pages : List Dim) : Dim :=
  match pages with
  | [] => a4Size
  | [p] => p
  | _ => (pickMostCommon (sizeFrequency pages)).1

theorem pick_aux_spec (entries : List (Dim × Nat)) (best : Dim × Nat) :
    (∀ e ∈ entries,
      e.2 ≤ (entries.foldl (fun best e => if best.2 < e.2 then e else best) best).2) ∧
    best.2 ≤ (entries.foldl (fun best e => if best.2 < e.2 then e else best) best).2 ∧
    ((entries.foldl (fun best e => if best.2 < e.2 then e else best) best) = best ∨
      ∃ l1 l2,
        entries = l1 ++ (entries.foldl (fun best e => if best.2 < e.2 then e else best) best) :: l2 ∧
        (∀ x ∈ l1,
          x.2 < (entries.foldl (fun best e => if best.2 < e.2 then e else best) best).2) ∧
        best.2 < (entries.foldl (fun best e => if best.2 < e.2 then e else best) best).2) := by
  induction entries generalizing best with
  | nil => exact ⟨by simp, le_refl _, Or.inl rfl⟩
  | cons e t ih =>
    rw [List.foldl_cons]
    by_cases hbe : best.2 < e.2
    · rw [if_pos hbe]
      rcases ih e with ⟨hall, hbase, hcases⟩
      refine ⟨?_, le_of_lt (lt_of_lt_of_le hbe hbase), ?_⟩
      · intro x hx
        rcases List.mem_cons.mp hx with h | h
        · exact h ▸ hbase
        · exact hall x h
      · right
        rcases hcases with hr | ⟨l1, l2, hsplit, hl1, hlt⟩
        · exact ⟨[], t, by rw [hr]; rfl, by simp, by rw [hr]; exact hbe⟩
        · refine ⟨e :: l1, l2, by rw [List.cons_append, ← hsplit], ?_, lt_trans hbe hlt⟩
          intro x hx
          rcases List.mem_cons.mp hx with h | h
          · exact h ▸ hlt
          · exact hl1 x h
    · rw [if_neg hbe]
      rcases ih best with ⟨hall, hbase, hcases⟩
      refine ⟨?_, hbase, ?_⟩
      · intro x hx
        rcases List.mem_cons.mp hx with h | h
        · exact h ▸ le_trans (Nat.le_of_not_lt hbe) hbase
        · exact hall x h
      · rcases hcases with hr | ⟨l1, l2, hsplit, hl1, hlt⟩
        · exact Or.inl hr
        · refine Or.inr ⟨e :: l1, l2, by rw [List.cons_append, ← hsplit], ?_, hlt⟩
          intro x hx
          rcases List.mem_cons.mp hx with h | h
          · exact h ▸ lt_of_le_of_lt (Nat.le_of_not_lt hbe) hlt
          · exact hl1 x h

/-- The index of the first occurrence of `p` in `l` (length of `l` if absent):
the first-encountered order used for the tie-break. -/
def firstIdx (p : Dim) : List Dim → Nat
  | [] => 0
  | q :: t => if q = p then 0 else firstIdx p t + 1

theorem firstIdx_append_of_mem (p : Dim) (l1 l2 : List Dim) (h : p ∈ l1) :
    firstIdx p (l1 ++ l2) = firstIdx p l1 := by
  induction l1 with
  | nil => cases h
  | cons q t ih =>
    by_cases hq : q = p
    · rw [List.cons_append, firstIdx, if_pos hq, firstIdx, if_pos hq]
    · rw [List.cons_append, firstIdx, if_neg hq, firstIdx, if_neg hq,
        ih (by rcases List.mem_cons.mp h with h | h; exact absurd h.symm hq; exact h)]

theorem firstIdx_append_of_not_mem (p : Dim) (l1 l2 : List Dim) (h : p ∉ l1) :
    firstIdx p (l1 ++ l2) = l1.length + firstIdx p l2 := by
  induction l1 with
  | nil => simp [firstIdx]
  | cons q t ih =>
    have hq : ¬q = p := fun hc => h (hc ▸ List.mem_cons_self q t)
    rw [List.cons_append, firstIdx, if_neg hq, ih (fun hc => h (List.mem_cons_of_mem _ hc))]
    simp only [List.length_cons]
    omega

theorem firstIdx_lt_length (p : Dim) (l : List Dim) (h : p ∈ l) :
    firstIdx p l < l.length := by
  induction l with
  | nil => cases h
  | cons q t ih =>
    by_cases hq : q = p
    · rw [firstIdx, if_pos hq]; simp
    · rw [firstIdx, if_neg hq]
      have hmem : p ∈ t := by rcases List.mem_cons.mp h with h | h; exact absurd h.symm hq; exact h
      have := ih hmem
      simp only [List.length_cons]
      omega

/-- Occurrence count of a size pair under exact equality. -/
def countDim (q : Dim) : List Dim → Nat
  | [] => 0
  | x :: t => (if x = q then 1 else 0) + countDim q t

theorem countDim_append_singleton (pre : List Dim) (p q : Dim) :
    countDim q (pre ++ [p]) = countDim q pre + (if p = q then 1 else 0) := by
  induction pre with
  | nil => simp [countDim]
  | cons x t ih => rw [List.cons_append, countDim, countDim, ih]; omega

theorem countDim_pos (p : Dim) (l : List Dim) (h : p ∈ l) : 1 ≤ countDim p l := by
  induction l with
  | nil => cases h
  | cons x t ih =>
    rw [countDim]
    by_cases hx : x = p
    · rw [if_pos hx]; omega
    · rw [if_neg hx]
      have : p ∈ t := by rcases List.mem_cons.mp h with h | h; exact absurd h.symm hx; exact h
      have := ih this
      omega

theorem countDim_eq_zero (p : Dim) (l : List Dim) (h : p ∉ l) : countDim p l = 0 := by
  induction l with
  | nil => rfl
  | cons x t ih =>
    rw [countDim, if_neg (fun hc => h (by rw [← hc]; exact List.mem_cons_self x t)),
      ih (fun hc => h (List.mem_cons_of_mem _ hc))]

/-- Invariant tying the frequency map built from the processed prefix `pre`
to the source `Map`'s contents: keyed by sizes occurring in `pre`, counts
equal to occurrence counts, complete, and listed in first-occurrence
order. -/
structure FreqInv (pre : List Dim) (m : List (Dim × Nat)) : Prop where
  keys_mem : ∀ e ∈ m, e.1 ∈ pre
  counts : ∀ e ∈ m, e.2 = countDim e.1 pre
  complete : ∀ q ∈ pre, ∃ e ∈ m, e.1 = q
  ordered : m.Pairwise (fun a b => firstIdx a.1 pre < firstIdx b.1 pre)

theorem freqInv_step (pre : List Dim) (m : List (Dim × Nat)) (p : Dim)
    (inv : FreqInv pre m) : FreqInv (pre ++ [p]) (bumpSize m p) := by
  by_cases hany : m.any (fun e => e.1 = p) = true
  · have hpmem : p ∈ pre := by
      rcases List.any_eq_true.mp hany with ⟨x, hx, hxp⟩
      exact (of_decide_eq_true hxp) ▸ inv.keys_mem x hx
    rw [bumpSize, if_pos hany]
    refine ⟨?_, ?_, ?_, ?_⟩
    · intro e he
      rcases List.mem_map.mp he with ⟨x, hx, hfx⟩
      have : e.1 = x.1 := by rw [← hfx]; by_cases h : x.1 = p <;> simp [h]
      rw [this]
      exact List.mem_append_left _ (inv.keys_mem x hx)
    · intro e he
      rcases List.mem_map.mp he with ⟨x, hx, hfx⟩
      by_cases h : x.1 = p
      · rw [if_pos h] at hfx
        rw [← hfx]
        simp only
        rw [countDim_append_singleton, if_pos h.symm, inv.counts x hx]
      · rw [if_neg h] at hfx
        rw [← hfx, countDim_append_singleton, if_neg (fun hc => h hc.symm), inv.counts x hx]
        omega
    · intro q hq
      rcases List.mem_append.mp hq with hq | hq
      · rcases inv.complete q hq with ⟨e, he, hkey⟩
        refine ⟨if e.1 = p then (e.1, e.2 + 1) else e, List.mem_map_of_mem _ he, ?_⟩
        by_cases h : e.1 = p
        · rw [if_pos h]; exact hkey
        · rw [if_neg h]; exact hkey
      · rcases List.mem_singleton.mp hq with rfl
        rcases List.any_eq_true.mp hany with ⟨x, hx, hxp⟩
        have hxp' : x.1 = q := of_decide_eq_true hxp
        refine ⟨if x.1 = q then (x.1, x.2 + 1) else x, ?_, ?_⟩
        · have := List.mem_map_of_mem (fun e => if e.1 = q then (e.1, e.2 + 1) else e) hx
          exact this
        · rw [if_pos hxp']; exact hxp'
    · rw [List.pairwise_map]
      refine List.Pairwise.imp_of_mem ?_ inv.ordered
      intro a b ha hb hab
      dsimp only
      have hka : (if a.1 = p then (a.1, a.2 + 1) else a).1 = a.1 := by
        by_cases h : a.1 = p <;> simp [h]
      have hkb : (if b.1 = p then (b.1, b.2 + 1) else b).1 = b.1 := by
        by_cases h : b.1 = p <;> simp [h]
      rw [hka, hkb, firstIdx_append_of_mem _ _ _ (inv.keys_mem a ha),
        firstIdx_append_of_mem _ _ _ (inv.keys_mem b hb)]
      exact hab
  · have hnot : ∀ e ∈ m, e.1 ≠ p := by
      intro e he hc
      exact hany (List.any_eq_true.mpr ⟨e, he, decide_eq_true hc⟩)
    have hpnot : p ∉ pre := by
      intro hc
      rcases inv.complete p hc with ⟨e, he, hkey⟩
      exact hnot e he hkey
    rw [bumpSize, if_neg hany]
    refine ⟨?_, ?_, ?_, ?_⟩
    · intro e he
      rcases List.mem_append.mp he with h | h
      · exact List.mem_append_left _ (inv.keys_mem e h)
      · rcases List.mem_singleton.mp h with rfl
        exact List.mem_append_right _ (List.mem_singleton_self p)
    · intro e he
      rcases List.mem_append.mp he with h | h
      · rw [countDim_append_singleton, if_neg (fun hc => hnot e h hc.symm), inv.counts e h]
        omega
      · rcases List.mem_singleton.mp h with rfl
        simp only
        rw [countDim_append_singleton, if_pos rfl, countDim_eq_zero _ _ hpnot]
    · intro q hq
      rcases List.mem_append.mp hq with h | h
      · rcases inv.complete q h with ⟨e, he, hkey⟩
        exact ⟨e, List.mem_append_left _ he, hkey⟩
      · rcases List.mem_singleton.mp h with rfl
        exact ⟨(q, 1), List.mem_append_right _ (List.mem_singleton_self _), rfl⟩
    · rw [List.pairwise_append]
      refine ⟨?_, List.pairwise_singleton _ _, ?_⟩
      · refine List.Pairwise.imp_of_mem ?_ inv.ordered
        intro a b ha hb hab
        rw [firstIdx_append_of_mem _ _ _ (inv.keys_mem a ha),
          firstIdx_append_of_mem _ _ _ (inv.keys_mem b hb)]
        exact hab
      · intro a ha b hb
        rcases List.mem_singleton.mp hb with rfl
        rw [firstIdx_append_of_mem _ _ _ (inv.keys_mem a ha),
          firstIdx_append_of_not_mem _ _ _ hpnot]
        have := firstIdx_lt_length a.1 pre (inv.keys_mem a ha)
        omega

theorem freqInv_fold : ∀ (pages pre : List Dim) (m : List (Dim × Nat)),
    FreqInv pre m → FreqInv (pre ++ pages) (pages.foldl bumpSize m) := by
  intro pages
  induction pages with
  | nil => intro pre m inv; rw [List.append_nil]; exact inv
  | cons p t ih =>
    intro pre m inv
    rw [List.foldl_cons]
    have h2 := ih (pre ++ [p]) (bumpSize m p) (freqInv_step pre m p inv)
    rwa [List.append_assoc, List.singleton_append] at h2

theorem freqInv_all (pages : List Dim) : FreqInv pages (sizeFrequency pages) := by
  have h0 : FreqInv [] [] := ⟨by simp, by simp, by simp, List.Pairwise.nil⟩
  have := freqInv_fold pages [] [] h0
  rwa [List.nil_append] at this

/-- C5: dominant-size detection returns A4 on an empty page list, the single
page's size on a one-page list, and otherwise a size occurring in the list
whose occurrence count (under exact equality) is maximal, with ties broken in
favor of the first-encountered size; on `[(600,800),(600,800),(612,792)]` it
returns `(600,800)`. -/
theorem detect_dominant_size :
    detectOriginalPageSize [] = a4Size ∧
    (∀ p : Dim, detectOriginalPageSize [p] = p) ∧
    (∀ pages : List Dim, 2 ≤ pages.length →
      detectOriginalPageSize pages ∈ pages ∧
      (∀ q ∈ pages, countDim q pages ≤ countDim (detectOriginalPageSize pages) pages) ∧
      (∀ q ∈ pages, countDim q pages = countDim (detectOriginalPageSize pages) pages →
        firstIdx (detectOriginalPageSize pages) pages ≤ firstIdx q pages)) ∧
    detectOriginalPageSize [(600, 800), (600, 800), (612, 792)] = (600, 800) := by
  refine ⟨rfl, fun p => rfl, ?_, by decide⟩
  intro pages hlen
  rcases pages with _ | ⟨a, _ | ⟨b, t⟩⟩
  · simp at hlen
  · simp at hlen
  · have inv := freqInv_all (a :: b :: t)
    rcases pick_aux_spec (sizeFrequency (a :: b :: t)) ((0, 0), 0) with ⟨hall, _, hcases⟩
    have hdet : detectOriginalPageSize (a :: b :: t) =
        ((sizeFrequency (a :: b :: t)).foldl (fun best e => if best.2 < e.2 then e else best)
          ((0, 0), 0)).1 := rfl
    rw [hdet]
    set F := sizeFrequency (a :: b :: t) with hF
    set r := F.foldl (fun best e => if best.2 < e.2 then e else best) ((0, 0), 0) with hrdef
    rcases hcases with hzero | ⟨l1, l2, hsplit, hl1, _⟩
    · exfalso
      rcases inv.complete a (List.mem_cons_self a _) with ⟨e, he, hkey⟩
      have h1 : 1 ≤ e.2 := by
        rw [inv.counts e he, hkey]
        exact countDim_pos a _ (List.mem_cons_self a _)
      have h2 := hall e he
      rw [hzero] at h2
      omega
    · have hrmem : r ∈ F := by
        rw [hsplit]
        exact List.mem_append_right _ (List.mem_cons_self _ _)
      refine ⟨inv.keys_mem r hrmem, ?_, ?_⟩
      · intro q hq
        rcases inv.complete q hq with ⟨e, he, hkey⟩
        have hle := hall e he
        rw [inv.counts e he, hkey] at hle
        rw [← inv.counts r hrmem]
        exact hle
      · intro q hq hcnt
        rcases inv.complete q hq with ⟨e, he, hkey⟩
        have hor : e ∈ l1 ∨ e = r ∨ e ∈ l2 := by
          rw [hsplit] at he
          rcases List.mem_append.mp he with h | h
          · exact Or.inl h
          · rcases List.mem_cons.mp h with h | h
            · exact Or.inr (Or.inl h)
            · exact Or.inr (Or.inr h)
        rcases hor with h | h | h
        · exfalso
          have hlt := hl1 e h
          rw [inv.counts e he, hkey] at hlt
          rw [← inv.counts r hrmem] at hcnt
          omega
        · rw [← h, hkey]
        · have hord := inv.ordered
          rw [hsplit] at hord
          have hpc := (List.pairwise_append.mp hord).2.1
          have hrel := (List.pairwise_cons.mp hpc).1 e h
          rw [hkey] at hrel
          exact le_of_lt hrel

/-- Witness for C5: the general part of `detect_dominant_size` applied to the
concrete three-page list of the spec. -/
theorem detect_dominant_size_witness :
    detectOriginalPageSize [(600, 800), (600, 800), (612, 792)] ∈
      [((600 : ℚ), (800 : ℚ)), (600, 800), (612, 792)] ∧
    (∀ q ∈ [((600 : ℚ), (800 : ℚ)), (600, 800), (612, 792)],
      countDim q [((600 : ℚ), (800 : ℚ)), (600, 800), (612, 792)] ≤
        countDim (detectOriginalPageSize [(600, 800), (600, 800), (612, 792)])
          [((600 : ℚ), (800 : ℚ)), (600, 800), (612, 792)]) ∧
    (∀ q ∈ [((600 : ℚ), (800 : ℚ)), (600, 800), (612, 792)],
      countDim q [((600 : ℚ), (800 : ℚ)), (600, 800), (612, 792)] =
        countDim (detectOriginalPageSize [(600, 800), (600, 800), (612, 792)])
          [((600 : ℚ), (800 : ℚ)), (600, 800), (612, 792)] →
      firstIdx (detectOriginalPageSize [(600, 800), (600, 800), (612, 792)])
          [((600 : ℚ), (800 : ℚ)), (600, 800), (612, 792)] ≤
        firstIdx q [((600 : ℚ), (800 : ℚ)), (600, 800), (612, 792)]) :=
  detect_dominant_size.2.2.1 [(600, 800), (600, 800), (612, 792)] (by decide)

/-! ## `pdf-lib` document model and `src/services/pdf.ts` -/

/-- A page of the `pdf-lib` document model: its size and the text strings
drawn on it, in drawing order.  Lines and rectangles carry no text and are
not recorded. -/
structure PPage where
  size : Dim
  texts : List String
deriving DecidableEq

/-- The external collaborators used by the protocol page: the `pt-BR` locale
timestamp formatter (`toLocaleString`), the clock footer string
(`new Date().toLocaleString('pt-BR')`), and the `toFixed(2)` kilobyte
formatter. -/
structure ExtCollab where
  fmtDate : String → String
  nowStr : String
  fmtKB : ℚ → String

/-- Split into the chunks matched by `/.{1,2}/g`: pairs, with a final
singleton if the length is odd. -/
def chunk2 : List Char → List (List Char)
  | [] => []
  | [c] => [[c]]
  | a :: b :: rest => [a, b] :: chunk2 rest

/-- Embeds `formatHashTotvs`: upper-case the string, split into 2-character
groups, join with dashes.  (`match` returns null exactly on the empty
string, in which case `|| hash` returns the input.) -/
def formatHashTotvs (hash : String) : String :=
  if hash.data.isEmpty then hash
  else String.intercalate "-" ((chunk2 (hash.data.map jsToUpper)).map (fun g => ⟨g⟩))

/-- Embeds `generateTotvsHash`: the grouped rendering of the first 40 hex
characters (20 bytes). -/
def generateTotvsHash (hash : String) : String := formatHashTotvs ⟨hash.data.take 40⟩

/-- The error message thrown by `loadPDF` when parsing fails. -/
def corruptPDFMessage : String :=
  "Não foi possível carregar o PDF. O arquivo pode estar corrompido ou protegido."

/-- Embeds `loadPDF`.  `PDFDocument.load` is the external parser, taken as
the parameter `parse`; the source converts its failure into the corrupt-PDF
error and makes no retry. -/
def loadPDF (parse : Bytes → Option (List PPage)) (pdfBytes : Bytes) :
    Except String (List PPage) :=
  match parse pdfBytes with
  | some doc => .ok doc
  | none => .error corruptPDFMessage

/-- Embeds `validatePDF`: true exactly when `loadPDF` does not throw. -/
def validatePDF (parse : Bytes → Option (List PPage)) (pdfBytes : Bytes) : Bool :=
  match loadPDF parse pdfBytes with
  | .ok _ => true
  | .error _ => false

/-- Embeds `getPDFPageCount`. -/
def getPDFPageCount (parse : Bytes → Option (List PPage)) (pdfBytes : Bytes) :
    Except String Nat :=
  (loadPDF parse pdfBytes).map List.length

/-- Embeds `fileName.replace(/\.pdf$/i, '')` (strip one trailing `.pdf`,
case-insensitively). -/
def stripPdfExt (s : String) : String :=
  if 4 ≤ s.data.length ∧ (s.data.drop (s.data.length - 4)).map Char.toLower = ".pdf".data
  then ⟨s.data.take (s.data.length - 4)⟩ else s

/-- `PROTOCOL_CONFIG.MARGIN`. -/
def protocolMargin : ℚ := 50

/-- `PROTOCOL_CONFIG.LINE_HEIGHT`. -/
def protocolLineHeight : ℚ := 14

/-- `PROTOCOL_CONFIG.SECTION_SPACING`. -/
def sectionSpacing : ℚ := 20

/-- The drawing state inside `createProtocolPage`: the text drawn so far on
the first protocol page — the page every `drawText` helper call targets —
the pages after it (the original document pages, then any overflow-inserted
blank pages at the document end), and the vertical cursor `y`. -/
structure ProtoState where
  page0 : List String
  rest : List PPage
  y : ℚ

/-- The `drawText` helper: draws on the protocol page and advances `y` by the
fixed line height (font options do not affect the cursor). -/
def pcDrawText (st : ProtoState) (text : String) : ProtoState :=
  { st with page0 := st.page0 ++ [text], y := st.y - protocolLineHeight }

/-- The `drawLine` helper: draws a rule on the protocol page and moves the
cursor by 10. -/
def pcLine (st : ProtoState) : ProtoState := { st with y := st.y - 10 }

/-- An explicit `y -= d` between sections. -/
def pcSpace (st : ProtoState) (d : ℚ) : ProtoState := { st with y := st.y - d }

/-- One signer entry of the registry loop, including the overflow check: if
the cursor is below `margin + 150` a blank page is inserted at the document
end (`insertPage(pdfDoc.getPageIndices().length, ...)`) and the cursor is
reset — but drawing continues on the first protocol page, exactly as the
source does. -/
def renderSignature (pw ph : ℚ) (fmtDate : String → String) (st : ProtoState)
    (signature : SignatureData) : ProtoState :=
  let st :=
    if st.y < protocolMargin + 150 then
      { st with rest := st.rest ++ [⟨(pw, ph), []⟩], y := ph - protocolMargin }
    else st
  let st := pcDrawText st ("Nome: " ++ signature.name ++ " - CPF/CNPJ: " ++
    formatCPF signature.cpf)
  let st := pcDrawText st ("Data: " ++ fmtDate signature.timestamp)
  let st := pcDrawText st "Status: Assinado eletronicamente"
  let st := pcDrawText st "Tipo de Autenticação: Utilizando identificador único do dispositivo"
  let st := pcDrawText st ("Device ID: " ++ signature.deviceId)
  let st := pcDrawText st ("Hash da Assinatura: " ++ abbreviateHash signature.hash 16)
  pcSpace st 10

/-- The drawing of `createProtocolPage` above the registry loop: title,
rule, document section (envelope name, author, status, both digests) and the
`Assinaturas` heading. -/
def protoHeader (doc : List PPage) (signatureLog : SignatureLog) (documentHash : String)
    (pageHeight : ℚ) (totvsHash : String) : ProtoState :=
  let st : ProtoState := ⟨[], doc, pageHeight - protocolMargin⟩
  let st := pcDrawText st "Protocolo de Assinaturas"
  let st := pcSpace st 5
  let st := pcLine st
  let st := pcSpace st 10
  let st := pcDrawText st "Documento"
  let st := pcSpace st 5
  let st := pcDrawText st ("Nome do envelope: " ++ stripPdfExt signatureLog.pdfMetadata.fileName)
  let author :=
    match signatureLog.signatures with
    | [] => "Sistema Local"
    | s :: _ => s.name
  let st := pcDrawText st ("Autor: " ++ author)
  let status := if signatureLog.signatures.isEmpty then "Pendente" else "Finalizado"
  let st := pcDrawText st ("Status: " ++ status)
  let st := pcDrawText st ("HASH TOTVS: " ++ totvsHash)
  let st := pcDrawText st ("SHA256: " ++ documentHash)
  let st := pcSpace st sectionSpacing
  let st := pcLine st
  let st := pcSpace st 10
  let st := pcDrawText st "Assinaturas"
  pcSpace st 5

/-- The drawing of `createProtocolPage` after the registry loop: rule,
authenticity section with the boxed digest, footer and file information. -/
def protoFooter (st : ProtoState) (signatureLog : SignatureLog) (totvsHash : String)
    (ext : ExtCollab) : ProtoState :=
  let st := pcSpace st sectionSpacing
  let st := pcLine st
  let st := pcSpace st 10
  let st := pcDrawText st "Autenticidade"
  let st := pcSpace st 5
  let st := pcDrawText st "Para verificar a autenticidade do documento, utilize o hash abaixo:"
  let st := pcSpace st 5
  let boxY := st.y - 25
  let st := { st with page0 := st.page0 ++ ["HASH TOTVS: " ++ totvsHash], y := boxY - 20 }
  let st := pcDrawText st "Este documento foi assinado eletronicamente."
  let st := pcDrawText st ("Gerado em: " ++ ext.nowStr)
  let st := pcSpace st 20
  let st := pcDrawText st ("Arquivo original: " ++ signatureLog.pdfMetadata.fileName)
  let st := pcDrawText st ("Tamanho: " ++ ext.fmtKB signatureLog.pdfMetadata.fileSize ++ " KB")
  pcDrawText st ("Total de assinaturas: " ++ toString signatureLog.signatures.length)

/-- Embeds `createProtocolPage`: insert the protocol page at index 0 sized by
`detectOriginalPageSize`, then render the header sections, the signature
registry (with the overflow check; an empty ledger renders a single
explanatory line instead) and the authenticity footer onto it. -/
def createProtocolPage (doc : List PPage) (signatureLog : SignatureLog)
    (documentHash : String) (ext : ExtCollab) : List PPage :=
  let dims := detectOriginalPageSize (doc.map PPage.size)
  let pageWidth := dims.1
  let pageHeight := dims.2
  let totvsHash := generateTotvsHash documentHash
  let st := protoHeader doc signatureLog documentHash pageHeight totvsHash
  let st :=
    if signatureLog.signatures.isEmpty then
      pcDrawText st "Nenhuma assinatura registrada."
    else
      signatureLog.signatures.foldl (renderSignature pageWidth pageHeight ext.fmtDate) st
  let st := protoFooter st signatureLog totvsHash ext
  ⟨(pageWidth, pageHeight), st.page0⟩ :: st.rest

/-- The per-page loop of `drawHashHeaderOnAllPages`: page at running index
`i` receives the centred hash band text and the right-aligned
`Página i+1 de n` text. -/
def stampPages (totvs : String) (n : Nat) : Nat → List PPage → List PPage
  | _, [] => []
  | i, p :: rest =>
    { p with texts := p.texts ++ ["HASH: " ++ totvs,
        "Página " ++ toString (i + 1) ++ " de " ++ toString n] } ::
      stampPages totvs n (i + 1) rest

/-- Embeds `drawHashHeaderOnAllPages`. -/
def drawHashHeaderOnAllPages (doc : List PPage) (documentHash : String) : List PPage :=
  stampPages (generateTotvsHash documentHash) doc.length 0 doc

/-- Embeds `finalizePDFWithProtocol`: load, hash the input bytes, build the
protocol page(s), then stamp every page.  The final `pdfDoc.save()`
serialization is external and page-preserving; the embedding returns the
page structure. -/
def finalizePDFWithProtocol (parse : Bytes → Option (List PPage)) (ext : ExtCollab)
    (pdfBytes : Bytes) (signatureLog : SignatureLog) : Except String (List PPage) :=
  match loadPDF parse pdfBytes with
  | .error e => .error e
  | .ok doc =>
    let documentHash := generateSHA256 pdfBytes
    let doc2 := createProtocolPage doc signatureLog documentHash ext
    .ok (drawHashHeaderOnAllPages doc2 documentHash)

/-! ## C7 — load/validate error behaviour -/

/-- C7: loading fails with the corrupt-document error exactly when the
underlying parse fails; that failure propagates unchanged (no retry) to the
finalize caller; and `validatePDF` returns true iff the buffer is
loadable. -/
theorem load_validate_spec (parse : Bytes → Option (List PPage)) (ext : ExtCollab)
    (pdfBytes : Bytes) (signatureLog : SignatureLog) :
    (loadPDF parse pdfBytes = .error corruptPDFMessage ↔ parse pdfBytes = none) ∧
    ((∃ doc, loadPDF parse pdfBytes = .ok doc) ↔ (parse pdfBytes).isSome = true) ∧
    (validatePDF parse pdfBytes = true ↔ (parse pdfBytes).isSome = true) ∧
    (finalizePDFWithProtocol parse ext pdfBytes signatureLog = .error corruptPDFMessage ↔
      parse pdfBytes = none) := by
  cases hp : parse pdfBytes with
  | none => simp [loadPDF, validatePDF, finalizePDFWithProtocol, hp]
  | some doc => simp [loadPDF, validatePDF, finalizePDFWithProtocol, hp]

/-! ## Header stamping lemmas and C3 -/

/-- Default page for total indexing. -/
def pageDefault : PPage := ⟨(0, 0), []⟩

theorem stampPages_nil_length (totvs : String) (n : Nat) :
    ∀ (j : Nat) (l : List PPage), (stampPages totvs n j l).length = l.length := by
  intro j l
  induction l generalizing j with
  | nil => rfl
  | cons p rest ih => rw [stampPages, List.length_cons, List.length_cons, ih]

theorem stampPages_getD (totvs : String) (n : Nat) :
    ∀ (l : List PPage) (j i : Nat), i < l.length →
      (stampPages totvs n j l).getD i pageDefault =
        { l.getD i pageDefault with texts := (l.getD i pageDefault).texts ++
            ["HASH: " ++ totvs,
             "Página " ++ toString (j + i + 1) ++ " de " ++ toString n] } := by
  intro l
  induction l with
  | nil => intro j i h; cases h
  | cons p rest ih =>
    intro j i h
    cases i with
    | zero => rfl
    | succ i2 =>
      rw [stampPages, List.getD_cons_succ, List.getD_cons_succ,
        ih (j + 1) i2 (Nat.lt_of_succ_lt_succ h)]
      have : j + 1 + i2 = j + (i2 + 1) := by omega
      rw [this]

/-- C3: a successful finalize stamps every page `i` (0-based) with the page
text for index `i+1` out of the total page count read after the protocol
insertion, and with the same hash text on every page: `"HASH: "` followed by
the truncated grouped rendering of the whole-document digest of the input
bytes, computed at finalize time. -/
theorem finalize_header_stamp (parse : Bytes → Option (List PPage)) (ext : ExtCollab)
    (pdfBytes : Bytes) (signatureLog : SignatureLog) (doc : List PPage)
    (hok : finalizePDFWithProtocol parse ext pdfBytes signatureLog = .ok doc)
    (i : Nat) (hi : i < doc.length) :
    ("HASH: " ++ generateTotvsHash (generateSHA256 pdfBytes)) ∈
      (doc.getD i pageDefault).texts ∧
    ("Página " ++ toString (i + 1) ++ " de " ++ toString doc.length) ∈
      (doc.getD i pageDefault).texts := by
  cases hp : parse pdfBytes with
  | none => simp [finalizePDFWithProtocol, loadPDF, hp] at hok
  | some doc0 =>
    simp only [finalizePDFWithProtocol, loadPDF, hp, Except.ok.injEq] at hok
    subst hok
    rw [drawHashHeaderOnAllPages] at hi ⊢
    set C := createProtocolPage doc0 signatureLog (generateSHA256 pdfBytes) ext with hC
    have hiC : i < C.length := by rwa [stampPages_nil_length] at hi
    rw [stampPages_nil_length, stampPages_getD _ _ C 0 i hiC, Nat.zero_add]
    constructor
    · exact List.mem_append_right _ (List.mem_cons_self _ _)
    · exact List.mem_append_right _ (List.mem_cons_of_mem _ (List.mem_cons_self _ _))

/-- One original page with a recognizable text, used by the concrete
instances below. -/
def origPage : PPage := ⟨(600, 842), ["ORIG"]⟩

/-- A concrete parser: every buffer parses to the one-page document. -/
def parseW : Bytes → Option (List PPage) := fun _ => some [origPage]

/-- Concrete external collaborators. -/
def extW : ExtCollab := ⟨fun ts => ts, "15/01/2024, 10:30:00", fun _ => "1.00"⟩

def metaW : PDFMetadata := ⟨"contrato.pdf", 1024, 0⟩

/-- An empty ledger. -/
def logW0 : SignatureLog := ⟨"doc-1", metaW, [], "t0", "t0"⟩

/-- The finalize result on the empty ledger. -/
def docW3 : List PPage := (finalizePDFWithProtocol parseW extW [] logW0).toOption.getD []

/-- Witness for C3 at a concrete one-page document with an empty ledger. -/
theorem finalize_header_stamp_witness :
    ("HASH: " ++ generateTotvsHash (generateSHA256 [])) ∈ (docW3.getD 0 pageDefault).texts ∧
    ("Página " ++ toString (0 + 1) ++ " de " ++ toString docW3.length) ∈
      (docW3.getD 0 pageDefault).texts :=
  finalize_header_stamp parseW extW [] logW0 docW3 rfl 0 (by decide)

/-! ## Protocol page shape lemmas, C4 and C2 -/

theorem renderSignature_rest (pw ph : ℚ) (fd : String → String) (st : ProtoState)
    (signature : SignatureData) :
    (renderSignature pw ph fd st signature).rest = st.rest ∨
    (renderSignature pw ph fd st signature).rest = st.rest ++ [⟨(pw, ph), []⟩] := by
  unfold renderSignature
  by_cases hy : st.y < protocolMargin + 150
  · right
    rw [if_pos hy]
    rfl
  · left
    rw [if_neg hy]
    rfl

theorem foldl_renderSignature_rest (pw ph : ℚ) (fd : String → String) :
    ∀ (sigs : List SignatureData) (st : ProtoState),
      ∃ k, (sigs.foldl (renderSignature pw ph fd) st).rest =
        st.rest ++ List.replicate k ⟨(pw, ph), []⟩ := by
  intro sigs
  induction sigs with
  | nil => intro st; exact ⟨0, by simp⟩
  | cons s rest ih =>
    intro st
    rw [List.foldl_cons]
    rcases ih (renderSignature pw ph fd st s) with ⟨k, hk⟩
    rcases renderSignature_rest pw ph fd st s with h | h
    · exact ⟨k, by rw [hk, h]⟩
    · refine ⟨k + 1, ?_⟩
      rw [hk, h, List.append_assoc, List.singleton_append, ← List.replicate_succ]

/-- `createProtocolPage` is the protocol content page consed onto the
remaining pages. -/
theorem createProtocolPage_cons (doc : List PPage) (log : SignatureLog) (h : String)
    (ext : ExtCollab) :
    createProtocolPage doc log h ext =
      ⟨detectOriginalPageSize (doc.map PPage.size),
        ((createProtocolPage doc log h ext).headD pageDefault).texts⟩ ::
        (createProtocolPage doc log h ext).tail := rfl

/-- The pages after the protocol content page are exactly the original pages
followed by the blank pages inserted by the overflow branch, at the document
end. -/
theorem createProtocolPage_tail (doc : List PPage) (log : SignatureLog) (h : String)
    (ext : ExtCollab) :
    ∃ k, (createProtocolPage doc log h ext).tail =
      doc ++ List.replicate k ⟨detectOriginalPageSize (doc.map PPage.size), []⟩ := by
  have h1 : (createProtocolPage doc log h ext).tail =
      (if log.signatures.isEmpty then
          pcDrawText (protoHeader doc log h (detectOriginalPageSize (doc.map PPage.size)).2
            (generateTotvsHash h)) "Nenhuma assinatura registrada."
        else
          log.signatures.foldl
            (renderSignature (detectOriginalPageSize (doc.map PPage.size)).1
              (detectOriginalPageSize (doc.map PPage.size)).2 ext.fmtDate)
            (protoHeader doc log h (detectOriginalPageSize (doc.map PPage.size)).2
              (generateTotvsHash h))).rest := rfl
  rw [h1]
  by_cases hemp : log.signatures.isEmpty = true
  · rw [if_pos hemp]
    exact ⟨0, by rw [List.replicate_zero, List.append_nil]; rfl⟩
  · rw [if_neg hemp]
    obtain ⟨k, hk⟩ := foldl_renderSignature_rest
      (detectOriginalPageSize (doc.map PPage.size)).1
      (detectOriginalPageSize (doc.map PPage.size)).2 ext.fmtDate log.signatures
      (protoHeader doc log h (detectOriginalPageSize (doc.map PPage.size)).2
        (generateTotvsHash h))
    exact ⟨k, by rw [hk]; rfl⟩

theorem getD_replicate_lt {α : Type} (a d : α) :
    ∀ (k j : Nat), j < k → (List.replicate k a).getD j d = a := by
  intro k
  induction k with
  | zero => intro j h; cases h
  | succ k2 ih =>
    intro j h
    cases j with
    | zero => rfl
    | succ j2 => rw [List.replicate_succ, List.getD_cons_succ]; exact ih j2 (by omega)

/-- C4 (amended): a successful finalize on a document parsing to `doc0`
yields, in order: the protocol content page first; the original pages next,
in their original order, each gaining exactly the header stamp; and the `k`
overflow-inserted protocol pages last — appended at the document end, after
the originals, not at the front.  Every page is stamped with the page count
read after insertion, and the total page count is
`countPages(D) + (1 + k)`, i.e. the original count plus the number of
protocol pages produced. -/
theorem finalize_assembly (parse : Bytes → Option (List PPage)) (ext : ExtCollab)
    (pdfBytes : Bytes) (signatureLog : SignatureLog) (doc0 doc : List PPage)
    (hparse : parse pdfBytes = some doc0)
    (hok : finalizePDFWithProtocol parse ext pdfBytes signatureLog = .ok doc) :
    ∃ k : Nat,
      doc.length = doc0.length + 1 + k ∧
      (∀ j, j < doc0.length →
        (doc.getD (1 + j) pageDefault).texts =
          (doc0.getD j pageDefault).texts ++
            ["HASH: " ++ generateTotvsHash (generateSHA256 pdfBytes),
             "Página " ++ toString (1 + j + 1) ++ " de " ++ toString doc.length]) ∧
      (∀ j, j < k →
        (doc.getD (1 + doc0.length + j) pageDefault).texts =
          ["HASH: " ++ generateTotvsHash (generateSHA256 pdfBytes),
           "Página " ++ toString (1 + doc0.length + j + 1) ++ " de " ++
             toString doc.length]) := by
  simp only [finalizePDFWithProtocol, loadPDF, hparse, Except.ok.injEq] at hok
  subst hok
  obtain ⟨k, htail⟩ :=
    createProtocolPage_tail doc0 signatureLog (generateSHA256 pdfBytes) ext
  have hcons := createProtocolPage_cons doc0 signatureLog (generateSHA256 pdfBytes) ext
  set C := createProtocolPage doc0 signatureLog (generateSHA256 pdfBytes) ext with hCdef
  rw [htail] at hcons
  have hClen : C.length = doc0.length + 1 + k := by
    rw [hcons]
    simp only [List.length_cons, List.length_append, List.length_replicate]
    omega
  refine ⟨k, ?_, ?_, ?_⟩
  · rw [drawHashHeaderOnAllPages, stampPages_nil_length]
    exact hClen
  · intro j hj
    have hb : 1 + j < C.length := by omega
    rw [drawHashHeaderOnAllPages]
    simp only [stampPages_nil_length]
    rw [stampPages_getD _ _ C 0 (1 + j) hb, Nat.zero_add]
    have hCget : C.getD (1 + j) pageDefault = doc0.getD j pageDefault := by
      rw [hcons]
      have h1 : 1 + j = j + 1 := by omega
      rw [h1, List.getD_cons_succ, List.getD_append _ _ _ _ hj]
    rw [hCget, hClen]
  · intro j hj
    have hb : 1 + doc0.length + j < C.length := by omega
    rw [drawHashHeaderOnAllPages]
    simp only [stampPages_nil_length]
    rw [stampPages_getD _ _ C 0 (1 + doc0.length + j) hb, Nat.zero_add]
    have hCget : C.getD (1 + doc0.length + j) pageDefault =
        ⟨detectOriginalPageSize (doc0.map PPage.size), []⟩ := by
      rw [hcons]
      have h1 : 1 + doc0.length + j = (doc0.length + j) + 1 := by omega
      rw [h1, List.getD_cons_succ,
        List.getD_append_right _ _ _ _ (by omega)]
      have h2 : doc0.length + j - doc0.length = j := by omega
      rw [h2, getD_replicate_lt _ _ _ _ hj]
    rw [hCget, hClen]
    rfl

/-- A concrete signer record. -/
def sigW : SignatureData :=
  ⟨"id-1", "JOAO DA SILVA", "52998224725", "dev-1", "2024-01-15T10:30:00.000Z",
   "a591a6d40bf420404a011733cfb7b190d62c65bf0bcda32b57b277d9ad9f146e"⟩

/-- A one-signer ledger (no overflow). -/
def logW1 : SignatureLog := ⟨"doc-1", metaW, [sigW], "t0", "t0"⟩

/-- The finalize result on the one-signer ledger. -/
def docW4 : List PPage := (finalizePDFWithProtocol parseW extW [] logW1).toOption.getD []

/-- Witness for C4 (amended) at a one-signer ledger over a one-page
document. -/
theorem finalize_assembly_witness :
    ∃ k : Nat,
      docW4.length = [origPage].length + 1 + k ∧
      (∀ j, j < [origPage].length →
        (docW4.getD (1 + j) pageDefault).texts =
          ([origPage].getD j pageDefault).texts ++
            ["HASH: " ++ generateTotvsHash (generateSHA256 []),
             "Página " ++ toString (1 + j + 1) ++ " de " ++ toString docW4.length]) ∧
      (∀ j, j < k →
        (docW4.getD (1 + [origPage].length + j) pageDefault).texts =
          ["HASH: " ++ generateTotvsHash (generateSHA256 []),
           "Página " ++ toString (1 + [origPage].length + j + 1) ++ " de " ++
             toString docW4.length]) :=
  finalize_assembly parseW extW [] logW1 [origPage] docW4 rfl rfl

/-- The i-th signer of the overflow ledger, with a recognizable name. -/
def overflowSig (i : Nat) : SignatureData :=
  ⟨toString i, "SIGNER" ++ toString i, "52998224725", "dev-1",
   "2024-01-15T10:30:00.000Z",
   "a591a6d40bf420404a011733cfb7b190d62c65bf0bcda32b57b277d9ad9f146e"⟩

/-- A seven-signer ledger: enough entries to trigger the overflow branch
before the sixth entry under the fixed layout constants. -/
def overflowLog : SignatureLog :=
  ⟨"doc-1", metaW, (List.range 7).map overflowSig, "t0", "t0"⟩

/-- The finalize result on the overflow ledger. -/
def docOverflow : List PPage :=
  (finalizePDFWithProtocol parseW extW [] overflowLog).toOption.getD []

theorem orig_ne_hash (s : String) : "ORIG" ≠ "HASH: " ++ s := by
  intro h
  have hd := congrArg (fun t => t.data.length) h
  simp only [String.data_append, List.length_append, List.length_cons,
    List.length_nil] at hd
  omega

theorem orig_ne_page (a b : String) : "ORIG" ≠ "Página " ++ a ++ " de " ++ b := by
  intro h
  have hd := congrArg (fun t => t.data.length) h
  simp only [String.data_append, List.length_append, List.length_cons,
    List.length_nil] at hd
  omega

set_option maxRecDepth 100000 in
/-- C4 counterexample: with the seven-signer ledger the build produces two
protocol pages, but the second is appended after the original page — the
original page's content sits at index 1 of 3 and the last page carries only
the header stamp, so the built protocol pages are not all inserted at the
front with the originals after them. -/
theorem finalize_front_insert_counterexample :
    docOverflow.length = 3 ∧
    "ORIG" ∈ (docOverflow.getD 1 pageDefault).texts ∧
    "ORIG" ∉ (docOverflow.getD 2 pageDefault).texts := by
  obtain ⟨k, hlen, horig, hblank⟩ :=
    finalize_assembly parseW extW [] overflowLog [origPage] docOverflow rfl rfl
  have hlen3 : docOverflow.length = 3 := by with_unfolding_all decide
  simp only [List.length_singleton] at hlen
  have hk : 0 < k := by omega
  refine ⟨hlen3, ?_, ?_⟩
  · have h0 := horig 0 (by simp)
    simp only [Nat.add_zero, List.getD_cons_zero] at h0
    rw [h0]
    exact List.mem_append_left _ (List.mem_cons_self _ _)
  · have h2 := hblank 0 hk
    have hidx : 1 + [origPage].length + 0 = 2 := by simp
    rw [hidx] at h2
    rw [h2]
    intro hmem
    rcases List.mem_cons.mp hmem with h | h
    · exact orig_ne_hash _ h
    · rcases List.mem_cons.mp h with h | h
      · exact orig_ne_page _ _ h
      · cases h

/-- The protocol pages built directly by `createProtocolPage` on the
overflow ledger, with a fixed concrete document digest. -/
def protoOverflow : List PPage :=
  createProtocolPage [origPage] overflowLog
    "a591a6d40bf420404a011733cfb7b190d62c65bf0bcda32b57b277d9ad9f146e" extW

set_option maxRecDepth 100000 in
/-- C2 (code bug evaluated at the failing input): with seven signers the
overflow check fires, a new page is inserted at the document end and the
cursor `y` is reset — but every remaining entry is still drawn on the first
protocol page: the newly created page (index 2) stays empty while the
post-overflow seventh signer's name line lands on page 0. -/
theorem overflow_keeps_drawing_on_first_page :
    protoOverflow.length = 3 ∧
    (protoOverflow.getD 2 pageDefault).texts = [] ∧
    ("Nome: SIGNER6 - CPF/CNPJ: " ++ formatCPF "52998224725") ∈
      (protoOverflow.getD 0 pageDefault).texts := by
  exact ⟨by with_unfolding_all decide, by with_unfolding_all decide,
    by with_unfolding_all decide⟩
